import Mathlib

/-
Verification of the concurrent block-matrix-multiplication engine
(src/src/threadedmatrixmultiplier.h) against its specification.

The development is a shallow embedding of the C++ code:

* `SquareMatrix` models the dense-matrix collaborator (matrix.h, an
  external collaborator of the engine).
* `blockSum`, `computeBlock`, `zeroFill`, `multiplyJobs`, `runJobs` and
  `multiply` embed the block kernel and the `multiply` entry point.
* `BufferModel` with `sendJob`, `getJobStep`, `jobCompleted`,
  `startNewComputation`, `waitAllJobsDone` embeds the monitor-guarded
  `Buffer` class; `NatMap` association lists reproduce `std::map<int,int>`
  semantics including default-insertion by `operator[]`.
* `SysState`/`sysStep` is the transition system describing how the engine
  (dispatcher plus worker pool) drives the buffer; invariants over its
  reachable states settle the bookkeeping claims.
* `terminateRemaining` models the fixed 100-pulse wake loop of
  `Buffer::terminate` in the drain scenario.

Worker concurrency is modelled by interleaving: every buffer operation
executes atomically under the monitor in the source, so a system run is an
arbitrary sequence of these atomic operations subject to their guards.
-/

namespace MatrixMult

/-- Element type of the matrices.  The C++ class is a template; the test
suite instantiates it at numeric types, and the embedding uses integers
(the spec's "exactly (integer types)" case). -/
abbrev Elem := Int

/-- Modelled from the spec: the dense-matrix storage type (matrix.h) is an
external collaborator not contained in src; the spec describes it as a
square matrix with a size query and element access/mutation by two indices,
and explicitly leaves the index orientation of `element`/`setElement` to be
pinned down by the correctness property P1 against the reference
multiplier.  Here `data x y` is the value returned by `element(x, y)`; the
orientation is the one under which the engine's kernel reproduces the
standard product, as P1 requires: `x` is the column index and `y` the row
index. -/
structure SquareMatrix where
  size : Nat
  data : Nat → Nat → Elem

/-- Collaborator access `element(x, y)`. -/
def element (M : SquareMatrix) (x y : Nat) : Elem := M.data x y

/-- Collaborator mutation `setElement(x, y, v)`. -/
def setElement (M : SquareMatrix) (x y : Nat) (v : Elem) : SquareMatrix :=
  ⟨M.size, fun a b => if a = x ∧ b = y then v else M.data a b⟩

/-- Row/column reading of a matrix induced by the collaborator's
orientation: the entry in row `r` and column `c` is `element c r`. -/
def entry (M : SquareMatrix) (r c : Nat) : Elem := M.data c r

/-- ComputeParameters: the parameters of one job (the matrix pointers of
the C++ struct are passed explicitly to `computeBlock` instead of being
stored, since the jobs of one `multiply` call all point at the same three
matrices). -/
structure ComputeParameters where
  blockI : Nat
  blockJ : Nat
  nbBlocksPerRow : Nat
  computationId : Nat
deriving DecidableEq

/-- Inner reduction of `ThreadedMatrixMultiplier::computeBlock`: the value
accumulated into `sum` for output position `(i, j)`, looping over all
`blockK < nbBlocksPerRow` and, inside, over
`k = blockK * blockSize + t` for `t < blockSize`. -/
def blockSum (A B : SquareMatrix) (blockSize nbBlocksPerRow i j : Nat) : Elem :=
  (List.range nbBlocksPerRow).foldl (fun s blockK =>
    (List.range blockSize).foldl (fun s t =>
      s + element A (blockK * blockSize + t) i * element B j (blockK * blockSize + t)) s) 0

/-- ThreadedMatrixMultiplier::computeBlock: for every `(i, j)` in the block
given by `(params.blockI, params.blockJ)`, with
`blockSize = A.size / params.nbBlocksPerRow`, write
`setElement(j, i, sum)` where `sum` is the complete k-reduction. -/
def computeBlock (A B : SquareMatrix) (p : ComputeParameters) (C : SquareMatrix) : SquareMatrix :=
  (List.range (A.size / p.nbBlocksPerRow)).foldl (fun C ti =>
    (List.range (A.size / p.nbBlocksPerRow)).foldl (fun C tj =>
      setElement C
        (p.blockJ * (A.size / p.nbBlocksPerRow) + tj)
        (p.blockI * (A.size / p.nbBlocksPerRow) + ti)
        (blockSum A B (A.size / p.nbBlocksPerRow) p.nbBlocksPerRow
          (p.blockI * (A.size / p.nbBlocksPerRow) + ti)
          (p.blockJ * (A.size / p.nbBlocksPerRow) + tj))) C) C

/-- Zero-fill loop at the start of `multiply`: `C.setElement(i, j, 0)` for
all `i, j < n`. -/
def zeroFill (C : SquareMatrix) (n : Nat) : SquareMatrix :=
  (List.range n).foldl (fun C i =>
    (List.range n).foldl (fun C j => setElement C i j 0) C) C

/-- Jobs created and sent by `multiply`, in send order: one per
`(blockI, blockJ)` pair of the grid, tagged with the computation id. -/
def multiplyJobs (nbBlocksPerRow id : Nat) : List ComputeParameters :=
  (List.range nbBlocksPerRow).flatMap (fun bi =>
    (List.range nbBlocksPerRow).map (fun bj => ⟨bi, bj, nbBlocksPerRow, id⟩))

/-- Net effect of the worker pool executing a list of jobs on the output
matrix.  Each job writes only its own block (invariant I1), so the result
does not depend on the interleaving; the jobs are folded in a fixed
order. -/
def runJobs (A B : SquareMatrix) (jobs : List ComputeParameters) (C : SquareMatrix) : SquareMatrix :=
  jobs.foldl (fun C p => computeBlock A B p C) C

/-- Events performed by `multiply`, in program order. -/
inductive MultiplyEvent
  | zeroFillC
  | beginComputation (id totalJobs : Nat)
  | sendJob (p : ComputeParameters)
  | waitAllJobsDone (id : Nat)
deriving DecidableEq

/-- Observable outcome of one `multiply(A, B, C, nbBlocksPerRow)` call:
the resulting output matrix, the jobs sent to the buffer in order, the
`totalJobs` argument passed to `startNewComputation`, and the ordered
event trace of the call. -/
structure MultiplyOutcome where
  result : SquareMatrix
  jobs : List ComputeParameters
  registeredTotal : Nat
  events : List MultiplyEvent

/-- ThreadedMatrixMultiplier::multiply (4-argument overload).  The body
first computes `blockSize = n / nbBlocksPerRow`; C++ integer division by
zero is undefined behaviour, modelled as `none` (the source contains no
guard, so a zero grid dimension reaches the undefined division).  For a
nonzero grid dimension the call zero-fills `C`, registers a computation of
`nbBlocksPerRow * nbBlocksPerRow` jobs, sends one job per block of the
grid, and waits; `id` is the computation id allocated by
`Buffer::startNewComputation`. -/
def multiply (A B C : SquareMatrix) (nbBlocksPerRow id : Nat) : Option MultiplyOutcome :=
  if nbBlocksPerRow = 0 then none
  else
    some
      { result := runJobs A B (multiplyJobs nbBlocksPerRow id) (zeroFill C A.size)
        jobs := multiplyJobs nbBlocksPerRow id
        registeredTotal := nbBlocksPerRow * nbBlocksPerRow
        events := MultiplyEvent.zeroFillC ::
          MultiplyEvent.beginComputation id (nbBlocksPerRow * nbBlocksPerRow) ::
          ((multiplyJobs nbBlocksPerRow id).map MultiplyEvent.sendJob ++
            [MultiplyEvent.waitAllJobsDone id]) }

/-- Standard mathematical matrix product, the spec-side reference: entry
`(i, j)` of the product of A and B at dimension n. -/
def productEntry (A B : SquareMatrix) (n i j : Nat) : Elem :=
  ((List.range n).map (fun k => entry A i k * entry B k j)).sum

theorem setElement_data (M : SquareMatrix) (x y : Nat) (v : Elem) (a b : Nat) :
    (setElement M x y v).data a b = if a = x ∧ b = y then v else M.data a b := rfl

theorem setElement_size (M : SquareMatrix) (x y : Nat) (v : Elem) :
    (setElement M x y v).size = M.size := rfl

theorem foldl_preserve_size {α : Type} (f : SquareMatrix → α → SquareMatrix)
    (hf : ∀ C x, (f C x).size = C.size) :
    ∀ (l : List α) (C : SquareMatrix), (l.foldl f C).size = C.size := by
  intro l
  induction l with
  | nil => intro C; rfl
  | cons x xs ih => intro C; rw [List.foldl_cons, ih, hf]

theorem zeroFill_size (C : SquareMatrix) (n : Nat) : (zeroFill C n).size = C.size := by
  unfold zeroFill
  exact foldl_preserve_size _
    (fun C i => foldl_preserve_size _ (fun C j => setElement_size C i j 0) _ C) _ C

theorem computeBlock_size (A B : SquareMatrix) (p : ComputeParameters) (C : SquareMatrix) :
    (computeBlock A B p C).size = C.size := by
  unfold computeBlock
  exact foldl_preserve_size _
    (fun C ti => foldl_preserve_size _ (fun C tj => setElement_size C _ _ _) _ C) _ C

theorem runJobs_size (A B : SquareMatrix) (js : List ComputeParameters) (C : SquareMatrix) :
    (runJobs A B js C).size = C.size :=
  foldl_preserve_size _ (fun C p => computeBlock_size A B p C) _ C

theorem zeroRow_data (i : Nat) : ∀ (n : Nat) (C : SquareMatrix) (a b : Nat),
    ((List.range n).foldl (fun C j => setElement C i j 0) C).data a b
      = if a = i ∧ b < n then 0 else C.data a b := by
  intro n
  induction n with
  | zero =>
    intro C a b
    simp only [List.range_zero, List.foldl_nil]
    rw [if_neg (by omega)]
  | succ m ih =>
    intro C a b
    rw [List.range_succ, List.foldl_append]
    simp only [List.foldl_cons, List.foldl_nil, setElement_data, ih]
    split_ifs <;> first | rfl | (exfalso; omega)

theorem zeroFillRows_data (n : Nat) : ∀ (m : Nat) (C : SquareMatrix) (a b : Nat),
    ((List.range m).foldl (fun C i =>
        (List.range n).foldl (fun C j => setElement C i j 0) C) C).data a b
      = if a < m ∧ b < n then 0 else C.data a b := by
  intro m
  induction m with
  | zero =>
    intro C a b
    simp only [List.range_zero, List.foldl_nil]
    rw [if_neg (by omega)]
  | succ m ih =>
    intro C a b
    rw [List.range_succ, List.foldl_append]
    simp only [List.foldl_cons, List.foldl_nil, zeroRow_data, ih]
    split_ifs <;> first | rfl | (exfalso; omega)

theorem zeroFill_data (C : SquareMatrix) (n : Nat) (a b : Nat) :
    (zeroFill C n).data a b = if a < n ∧ b < n then 0 else C.data a b := by
  unfold zeroFill
  exact zeroFillRows_data n n C a b

theorem blockRow_data (A B : SquareMatrix) (bs d off i : Nat) :
    ∀ (m : Nat) (C : SquareMatrix) (a b : Nat),
    ((List.range m).foldl (fun C tj =>
        setElement C (off + tj) i (blockSum A B bs d i (off + tj))) C).data a b
      = if b = i ∧ off ≤ a ∧ a < off + m then blockSum A B bs d b a else C.data a b := by
  intro m
  induction m with
  | zero =>
    intro C a b
    simp only [List.range_zero, List.foldl_nil]
    rw [if_neg (by omega)]
  | succ m ih =>
    intro C a b
    rw [List.range_succ, List.foldl_append]
    simp only [List.foldl_cons, List.foldl_nil, setElement_data, ih]
    by_cases hc : a = off + m ∧ b = i
    · obtain ⟨ha, hb⟩ := hc
      subst ha; subst hb
      rw [if_pos ⟨rfl, rfl⟩, if_pos ⟨rfl, by omega, by omega⟩]
    · rw [if_neg hc]
      split_ifs <;> first | rfl | (exfalso; omega)

theorem blockRows_data (A B : SquareMatrix) (bs d bi bj : Nat) :
    ∀ (m : Nat) (C : SquareMatrix) (a b : Nat),
    ((List.range m).foldl (fun C ti =>
        (List.range bs).foldl (fun C tj =>
          setElement C (bj * bs + tj) (bi * bs + ti)
            (blockSum A B bs d (bi * bs + ti) (bj * bs + tj))) C) C).data a b
      = if (bj * bs ≤ a ∧ a < bj * bs + bs) ∧ (bi * bs ≤ b ∧ b < bi * bs + m)
        then blockSum A B bs d b a else C.data a b := by
  intro m
  induction m with
  | zero =>
    intro C a b
    simp only [List.range_zero, List.foldl_nil]
    rw [if_neg (by omega)]
  | succ m ih =>
    intro C a b
    rw [List.range_succ, List.foldl_append]
    simp only [List.foldl_cons, List.foldl_nil, blockRow_data, ih]
    split_ifs <;> first | rfl | (exfalso; omega)

/-- Region of the output written by the job `p`: the cells `element(a, b)`
with `a` in the block-column range and `b` in the block-row range of `p`. -/
def coversCell (A : SquareMatrix) (p : ComputeParameters) (a b : Nat) : Prop :=
  (p.blockJ * (A.size / p.nbBlocksPerRow) ≤ a
      ∧ a < p.blockJ * (A.size / p.nbBlocksPerRow) + (A.size / p.nbBlocksPerRow))
  ∧ (p.blockI * (A.size / p.nbBlocksPerRow) ≤ b
      ∧ b < p.blockI * (A.size / p.nbBlocksPerRow) + (A.size / p.nbBlocksPerRow))

instance (A : SquareMatrix) (p : ComputeParameters) (a b : Nat) :
    Decidable (coversCell A p a b) := by
  unfold coversCell; infer_instance

theorem computeBlock_data (A B : SquareMatrix) (p : ComputeParameters) (C : SquareMatrix)
    (a b : Nat) :
    (computeBlock A B p C).data a b
      = if coversCell A p a b
        then blockSum A B (A.size / p.nbBlocksPerRow) p.nbBlocksPerRow b a
        else C.data a b := by
  unfold computeBlock coversCell
  exact blockRows_data A B _ _ _ _ _ C a b

theorem runJobs_data_uncovered (A B : SquareMatrix) :
    ∀ (js : List ComputeParameters) (C : SquareMatrix) (a b : Nat),
    (∀ p ∈ js, ¬ coversCell A p a b) →
    (runJobs A B js C).data a b = C.data a b := by
  intro js
  induction js with
  | nil => intro C a b _; rfl
  | cons p js ih =>
    intro C a b h
    simp only [runJobs, List.foldl_cons]
    have h1 : (runJobs A B js (computeBlock A B p C)).data a b
        = (computeBlock A B p C).data a b :=
      ih (computeBlock A B p C) a b (fun q hq => h q (List.mem_cons_of_mem p hq))
    simp only [runJobs] at h1
    rw [h1, computeBlock_data, if_neg (h p (List.mem_cons_self p js))]

theorem runJobs_data_covered (A B : SquareMatrix) (d : Nat) :
    ∀ (js : List ComputeParameters) (C : SquareMatrix) (a b : Nat),
    (∀ p ∈ js, p.nbBlocksPerRow = d) →
    (∃ p ∈ js, coversCell A p a b) →
    (runJobs A B js C).data a b = blockSum A B (A.size / d) d b a := by
  intro js
  induction js with
  | nil =>
    intro C a b _ hex
    exact absurd hex (by simp)
  | cons p js ih =>
    intro C a b hall hex
    simp only [runJobs, List.foldl_cons]
    by_cases hj : ∃ q ∈ js, coversCell A q a b
    · have := ih (computeBlock A B p C) a b
        (fun q hq => hall q (List.mem_cons_of_mem p hq)) hj
      simpa only [runJobs] using this
    · have hp : coversCell A p a b := by
        obtain ⟨q, hq, hcov⟩ := hex
        rcases List.mem_cons.mp hq with h | h
        · exact h ▸ hcov
        · exact absurd ⟨q, h, hcov⟩ hj
      have hrest : ∀ q ∈ js, ¬ coversCell A q a b := fun q hq hc => hj ⟨q, hq, hc⟩
      have h1 : (runJobs A B js (computeBlock A B p C)).data a b
          = (computeBlock A B p C).data a b :=
        runJobs_data_uncovered A B js _ a b hrest
      simp only [runJobs] at h1
      rw [h1, computeBlock_data, if_pos hp, hall p (List.mem_cons_self p js)]

theorem mem_multiplyJobs (d id : Nat) (p : ComputeParameters) :
    p ∈ multiplyJobs d id
      ↔ p.blockI < d ∧ p.blockJ < d ∧ p.nbBlocksPerRow = d ∧ p.computationId = id := by
  unfold multiplyJobs
  simp only [List.mem_flatMap, List.mem_map, List.mem_range]
  constructor
  · rintro ⟨bi, hbi, bj, hbj, rfl⟩
    exact ⟨hbi, hbj, rfl, rfl⟩
  · rintro ⟨h1, h2, h3, h4⟩
    refine ⟨p.blockI, h1, p.blockJ, h2, ?_⟩
    obtain ⟨bI, bJ, nb, cid⟩ := p
    simp_all

theorem exists_covering_job (A : SquareMatrix) (d id : Nat) (hdvd : d ∣ A.size)
    (a b : Nat) (ha : a < A.size) (hb : b < A.size) :
    ∃ p ∈ multiplyJobs d id, coversCell A p a b := by
  have hn : d * (A.size / d) = A.size := Nat.mul_div_cancel' hdvd
  have hbspos : 0 < A.size / d := by
    rcases Nat.eq_zero_or_pos (A.size / d) with h | h
    · rw [h, Nat.mul_zero] at hn; omega
    · exact h
  have ha' : a < A.size / d * d := by rw [Nat.mul_comm, hn]; exact ha
  have hb' : b < A.size / d * d := by rw [Nat.mul_comm, hn]; exact hb
  refine ⟨⟨b / (A.size / d), a / (A.size / d), d, id⟩, ?_, ?_⟩
  · rw [mem_multiplyJobs]
    exact ⟨Nat.div_lt_of_lt_mul hb', Nat.div_lt_of_lt_mul ha', rfl, rfl⟩
  · refine ⟨⟨Nat.div_mul_le_self a _, ?_⟩, ⟨Nat.div_mul_le_self b _, ?_⟩⟩
    · calc a = (A.size / d) * (a / (A.size / d)) + a % (A.size / d) :=
            (Nat.div_add_mod a (A.size / d)).symm
        _ < (A.size / d) * (a / (A.size / d)) + (A.size / d) :=
            Nat.add_lt_add_left (Nat.mod_lt a hbspos) _
        _ = a / (A.size / d) * (A.size / d) + (A.size / d) := by rw [Nat.mul_comm]
    · calc b = (A.size / d) * (b / (A.size / d)) + b % (A.size / d) :=
            (Nat.div_add_mod b (A.size / d)).symm
        _ < (A.size / d) * (b / (A.size / d)) + (A.size / d) :=
            Nat.add_lt_add_left (Nat.mod_lt b hbspos) _
        _ = b / (A.size / d) * (A.size / d) + (A.size / d) := by rw [Nat.mul_comm]

theorem covering_job_in_range (A : SquareMatrix) (d id : Nat) (hdvd : d ∣ A.size)
    (p : ComputeParameters) (hp : p ∈ multiplyJobs d id) (a b : Nat)
    (hcov : coversCell A p a b) : a < A.size ∧ b < A.size := by
  rw [mem_multiplyJobs] at hp
  obtain ⟨h1, h2, h3, h4⟩ := hp
  obtain ⟨⟨hja, hja2⟩, hib, hib2⟩ := hcov
  rw [h3] at hja2 hib2
  have hn : d * (A.size / d) = A.size := Nat.mul_div_cancel' hdvd
  constructor
  · calc a < p.blockJ * (A.size / d) + (A.size / d) := hja2
      _ = (p.blockJ + 1) * (A.size / d) := by ring
      _ ≤ d * (A.size / d) := Nat.mul_le_mul_right _ h2
      _ = A.size := hn
  · calc b < p.blockI * (A.size / d) + (A.size / d) := hib2
      _ = (p.blockI + 1) * (A.size / d) := by ring
      _ ≤ d * (A.size / d) := Nat.mul_le_mul_right _ h1
      _ = A.size := hn

theorem foldl_add_eq (f : Nat → Elem) :
    ∀ (l : List Nat) (a : Elem), l.foldl (fun s k => s + f k) a = a + (l.map f).sum := by
  intro l
  induction l with
  | nil => intro a; simp
  | cons x xs ih =>
    intro a
    simp only [List.foldl_cons, List.map_cons, List.sum_cons, ih]
    ring

theorem range_mul_sum (f : Nat → Elem) (bs : Nat) :
    ∀ d, ((List.range (d * bs)).map f).sum
      = ((List.range d).map
          (fun bK => ((List.range bs).map (fun t => f (bK * bs + t))).sum)).sum := by
  intro d
  induction d with
  | zero => simp
  | succ d ih =>
    rw [Nat.succ_mul, List.range_add, List.map_append, List.sum_append, ih,
        List.range_succ, List.map_append, List.sum_append, List.map_map]
    simp [Function.comp_def]

theorem blockSum_eq_sum (A B : SquareMatrix) (bs d i j : Nat) :
    blockSum A B bs d i j
      = ((List.range (d * bs)).map (fun k => element A k i * element B j k)).sum := by
  unfold blockSum
  rw [range_mul_sum]
  simp only [foldl_add_eq]
  rw [zero_add]

theorem multiply_eq_some (A B C : SquareMatrix) (d id : Nat) (hd : 0 < d) :
    multiply A B C d id = some
      { result := runJobs A B (multiplyJobs d id) (zeroFill C A.size)
        jobs := multiplyJobs d id
        registeredTotal := d * d
        events := MultiplyEvent.zeroFillC ::
          MultiplyEvent.beginComputation id (d * d) ::
          ((multiplyJobs d id).map MultiplyEvent.sendJob ++
            [MultiplyEvent.waitAllJobsDone id]) } := by
  unfold multiply
  rw [if_neg (by omega)]

theorem runJobs_grid_data (A B C0 : SquareMatrix) (d id : Nat) (hdvd : d ∣ A.size)
    (a b : Nat) :
    (runJobs A B (multiplyJobs d id) (zeroFill C0 A.size)).data a b
      = if a < A.size ∧ b < A.size
        then ((List.range A.size).map (fun k => element A k b * element B a k)).sum
        else C0.data a b := by
  by_cases h : a < A.size ∧ b < A.size
  · rw [if_pos h]
    have hcov := exists_covering_job A d id hdvd a b h.1 h.2
    have hall : ∀ p ∈ multiplyJobs d id, p.nbBlocksPerRow = d :=
      fun p hp => ((mem_multiplyJobs d id p).mp hp).2.2.1
    rw [runJobs_data_covered A B d _ _ a b hall hcov, blockSum_eq_sum,
        Nat.mul_div_cancel' hdvd]
  · rw [if_neg h]
    have hnone : ∀ p ∈ multiplyJobs d id, ¬ coversCell A p a b := by
      intro p hp hc
      exact h (covering_job_in_range A d id hdvd p hp a b hc)
    rw [runJobs_data_uncovered A B _ _ a b hnone, zeroFill_data, if_neg h]

theorem SquareMatrix.eq_of (M N : SquareMatrix) (h1 : M.size = N.size)
    (h2 : ∀ a b, M.data a b = N.data a b) : M = N := by
  obtain ⟨ms, md⟩ := M
  obtain ⟨ns, nd⟩ := N
  simp only at h1 h2
  subst h1
  have hd : md = nd := funext fun a => funext fun b => h2 a b
  rw [hd]

theorem multiplyJobs_length (d id : Nat) : (multiplyJobs d id).length = d * d := by
  unfold multiplyJobs
  rw [List.length_flatMap]
  have h : (List.map (List.length ∘ fun bj =>
      (List.range d).map (fun bj' => (⟨bj, bj', d, id⟩ : ComputeParameters))) (List.range d))
      = List.map (fun _ => d) (List.range d) := by
    apply List.map_congr_left
    intro bi _
    simp
  rw [h]
  induction d with
  | zero => simp
  | succ m _ =>
    have : ∀ (l : List Nat) (c : Nat), (List.map (fun _ => c) l).sum = l.length * c := by
      intro l c
      induction l with
      | nil => simp
      | cons x xs ih2 => simp [ih2, Nat.succ_mul]; ring
    rw [this]
    simp

theorem multiplyJobs_nodup (d id : Nat) : (multiplyJobs d id).Nodup := by
  unfold multiplyJobs
  rw [List.nodup_flatMap]
  constructor
  · intro bi _
    exact (List.nodup_range d).map
      (fun b1 b2 h => by simpa using congrArg ComputeParameters.blockJ h)
  · refine List.Pairwise.imp ?_ (List.pairwise_lt_range d)
    intro a b hab
    simp only [Function.onFun, List.Disjoint]
    intro p hp1 hp2
    simp only [List.mem_map, List.mem_range] at hp1 hp2
    obtain ⟨x1, _, rfl⟩ := hp1
    obtain ⟨x2, _, he⟩ := hp2
    have hba := congrArg ComputeParameters.blockI he
    simp only at hba
    omega

theorem multiplyJobs_count (d id bi bj : Nat) (hbi : bi < d) (hbj : bj < d) :
    (multiplyJobs d id).count (⟨bi, bj, d, id⟩ : ComputeParameters) = 1 :=
  List.count_eq_one_of_mem (multiplyJobs_nodup d id)
    ((mem_multiplyJobs d id _).mpr ⟨hbi, hbj, rfl, rfl⟩)

/-- C1: for all square matrices A, B of size n and every block-grid
dimension d that divides n, multiply(A, B, C, d) terminates with C equal
to the standard mathematical matrix product of A and B — every entry
C[i][j] equals the sum over the full k range of A[i][k] * B[k][j],
computed by the block kernel's complete k-reduction. -/
theorem multiply_computes_product (A B C : SquareMatrix) (d id : Nat)
    (hd : 0 < d) (hdvd : d ∣ A.size) :
    ∃ o, multiply A B C d id = some o ∧
      ∀ i j, i < A.size → j < A.size →
        entry o.result i j = productEntry A B A.size i j := by
  refine ⟨_, multiply_eq_some A B C d id hd, ?_⟩
  intro i j hi hj
  show (runJobs A B (multiplyJobs d id) (zeroFill C A.size)).data j i
      = productEntry A B A.size i j
  rw [runJobs_grid_data A B C d id hdvd j i, if_pos ⟨hj, hi⟩]
  rfl

/-- C2: for fixed A, B the output matrix of multiply is identical for
every valid block-grid dimension: any two divisors of n (including 1 and
n) produce the same result matrix. -/
theorem multiply_grid_invariant (A B C : SquareMatrix) (d1 d2 id1 id2 : Nat)
    (hd1 : 0 < d1) (hdvd1 : d1 ∣ A.size) (hd2 : 0 < d2) (hdvd2 : d2 ∣ A.size) :
    ∃ o1 o2, multiply A B C d1 id1 = some o1 ∧ multiply A B C d2 id2 = some o2 ∧
      o1.result = o2.result := by
  refine ⟨_, _, multiply_eq_some A B C d1 id1 hd1, multiply_eq_some A B C d2 id2 hd2, ?_⟩
  apply SquareMatrix.eq_of
  · show (runJobs A B (multiplyJobs d1 id1) (zeroFill C A.size)).size
        = (runJobs A B (multiplyJobs d2 id2) (zeroFill C A.size)).size
    rw [runJobs_size, zeroFill_size, runJobs_size, zeroFill_size]
  · intro a b
    show (runJobs A B (multiplyJobs d1 id1) (zeroFill C A.size)).data a b
        = (runJobs A B (multiplyJobs d2 id2) (zeroFill C A.size)).data a b
    rw [runJobs_grid_data A B C d1 id1 hdvd1 a b, runJobs_grid_data A B C d2 id2 hdvd2 a b]

/-- C8: multiply proceeds in order — zero-fill C, register a computation
with totalJobs = d², enqueue exactly one job per (blockRow, blockCol)
pair of the d × d grid, each tagged with the computation id, and only
then wait for completion. -/
theorem multiply_job_structure (A B C : SquareMatrix) (d id : Nat) (hd : 0 < d) :
    ∃ o, multiply A B C d id = some o ∧
      o.registeredTotal = d * d ∧
      o.jobs.length = d * d ∧
      (∀ bi bj, bi < d → bj < d →
        o.jobs.count (⟨bi, bj, d, id⟩ : ComputeParameters) = 1) ∧
      (∀ p ∈ o.jobs, p.blockI < d ∧ p.blockJ < d ∧ p.computationId = id) ∧
      o.events = MultiplyEvent.zeroFillC ::
        MultiplyEvent.beginComputation id (d * d) ::
        (o.jobs.map MultiplyEvent.sendJob ++ [MultiplyEvent.waitAllJobsDone id]) ∧
      o.result = runJobs A B o.jobs (zeroFill C A.size) := by
  refine ⟨_, multiply_eq_some A B C d id hd, rfl, multiplyJobs_length d id, ?_, ?_, rfl, rfl⟩
  · intro bi bj hbi hbj
    exact multiplyJobs_count d id bi bj hbi hbj
  · intro p hp
    obtain ⟨h1, h2, _, h4⟩ := (mem_multiplyJobs d id p).mp hp
    exact ⟨h1, h2, h4⟩

/-- Concrete 5 × 5 input for the divisibility counterexample. -/
def cexA : SquareMatrix := ⟨5, fun x y => (x : Int) + y⟩

/-- Concrete 5 × 5 input for the divisibility counterexample. -/
def cexB : SquareMatrix := ⟨5, fun x y => (x : Int) * y + 1⟩

/-- Concrete 5 × 5 output buffer for the divisibility counterexample. -/
def cexC : SquareMatrix := ⟨5, fun _ _ => 0⟩

/-- C5 counterexample: with n = 5 and blocksPerSide = 2, which does not
divide 5, the call is not rejected — multiply still sends four jobs to
the queue, contradicting the claim that no job is enqueued. -/
theorem multiply_sends_jobs_when_not_dividing :
    ¬ (2 ∣ cexA.size) ∧
      ∃ o, multiply cexA cexB cexC 2 0 = some o ∧ o.jobs.length = 4 := by
  refine ⟨by decide, _, multiply_eq_some cexA cexB cexC 2 0 (by omega), by decide⟩

/-- C5 amended: multiply performs no divisibility validation — for every
nonzero blocksPerSide that does not divide the matrix dimension, the call
still proceeds and enqueues exactly blocksPerSide² jobs (with truncated
blockSize = n / blocksPerSide). -/
theorem multiply_no_divisibility_check (A B C : SquareMatrix) (d id : Nat)
    (hd : 0 < d) (_hnd : ¬ d ∣ A.size) :
    ∃ o, multiply A B C d id = some o ∧ o.jobs.length = d * d :=
  ⟨_, multiply_eq_some A B C d id hd, multiplyJobs_length d id⟩

/-- Witness for the amended C5 statement at the concrete 5 × 5 input. -/
theorem multiply_no_divisibility_check_witness :
    (0 < 2 ∧ ¬ (2 ∣ cexA.size)) ∧
      ∃ o, multiply cexA cexB cexC 2 1 = some o ∧ o.jobs.length = 2 * 2 :=
  ⟨⟨by decide, by decide⟩,
    multiply_no_divisibility_check cexA cexB cexC 2 1 (by decide) (by decide)⟩

/-- ThreadedMatrixMultiplier engine configuration: the worker-thread count
and the default block-grid dimension stored by the constructor. -/
structure ThreadedMatrixMultiplier where
  nbThreads : Nat
  nbBlocksPerRow : Nat

/-- Declared default of the constructor's nbBlocksPerRow parameter. -/
def defaultNbBlocksPerRow : Nat := 0

/-- Engine constructed without an explicit default block-grid dimension. -/
def mkDefault (nbThreads : Nat) : ThreadedMatrixMultiplier :=
  ⟨nbThreads, defaultNbBlocksPerRow⟩

/-- Three-argument compatibility overload of multiply: forwards to the
four-argument overload with the stored default grid dimension. -/
def multiplyThreeArg (m : ThreadedMatrixMultiplier) (A B C : SquareMatrix) (id : Nat) :
    Option MultiplyOutcome :=
  multiply A B C m.nbBlocksPerRow id

/-- C9: the three-argument overload forwards to the four-argument overload
with the constructor's default block-grid dimension, whose default value
is 0; for every engine constructed without an explicit default, the call
reaches the unguarded division blockSize = n / 0 (undefined behaviour,
modelled as none). -/
theorem threeArg_default_reaches_division_by_zero (t : Nat) (A B C : SquareMatrix)
    (id : Nat) :
    (mkDefault t).nbBlocksPerRow = 0 ∧
    multiplyThreeArg (mkDefault t) A B C id = multiply A B C 0 id ∧
    multiply A B C 0 id = none :=
  ⟨rfl, rfl, rfl⟩

/-- Concrete 2 × 2 matrix used by the witnesses. -/
def witA : SquareMatrix := ⟨2, fun x y => (x : Int) + 2 * y⟩

/-- Concrete 2 × 2 matrix used by the witnesses. -/
def witB : SquareMatrix := ⟨2, fun x y => (x : Int) * y - 1⟩

/-- Concrete 2 × 2 output buffer used by the witnesses. -/
def witC : SquareMatrix := ⟨2, fun _ _ => 7⟩

/-- Witness for C1 at a concrete 2 × 2 input with a 2 × 2 block grid. -/
theorem multiply_computes_product_witness :
    (0 < 2 ∧ 2 ∣ witA.size) ∧
    (∃ o, multiply witA witB witC 2 5 = some o ∧
      ∀ i j, i < witA.size → j < witA.size →
        entry o.result i j = productEntry witA witB witA.size i j) :=
  ⟨⟨by decide, by decide⟩,
    multiply_computes_product witA witB witC 2 5 (by decide) (by decide)⟩

/-- Witness for C2 at a concrete 2 × 2 input comparing grids 1 and 2. -/
theorem multiply_grid_invariant_witness :
    (0 < 1 ∧ 1 ∣ witA.size ∧ 0 < 2 ∧ 2 ∣ witA.size) ∧
    (∃ o1 o2, multiply witA witB witC 1 0 = some o1 ∧
      multiply witA witB witC 2 1 = some o2 ∧ o1.result = o2.result) :=
  ⟨⟨by decide, by decide, by decide, by decide⟩,
    multiply_grid_invariant witA witB witC 1 2 0 1
      (by decide) (by decide) (by decide) (by decide)⟩

/-- Witness for C8 at a concrete 2 × 2 input with a 2 × 2 block grid. -/
theorem multiply_job_structure_witness :
    0 < 2 ∧
    (∃ o, multiply witA witB witC 2 3 = some o ∧
      o.registeredTotal = 2 * 2 ∧
      o.jobs.length = 2 * 2 ∧
      (∀ bi bj, bi < 2 → bj < 2 →
        o.jobs.count (⟨bi, bj, 2, 3⟩ : ComputeParameters) = 1) ∧
      (∀ p ∈ o.jobs, p.blockI < 2 ∧ p.blockJ < 2 ∧ p.computationId = 3) ∧
      o.events = MultiplyEvent.zeroFillC ::
        MultiplyEvent.beginComputation 3 (2 * 2) ::
        (o.jobs.map MultiplyEvent.sendJob ++ [MultiplyEvent.waitAllJobsDone 3]) ∧
      o.result = runJobs witA witB o.jobs (zeroFill witC witA.size)) :=
  ⟨by decide, multiply_job_structure witA witB witC 2 3 (by decide)⟩

/-- Association-list model of std::map<int, int> with its find, insert,
operator-bracket default-insertion and erase operations. -/
abbrev NatMap := List (Nat × Nat)

/-- Lookup, as std::map::find. -/
def mapFind : NatMap → Nat → Option Nat
  | [], _ => none
  | kv :: rest, k => if kv.1 = k then some kv.2 else mapFind rest k

/-- Value stored for a key, with 0 for an absent key (the value
operator-bracket would default-construct). -/
def mapFindD (m : NatMap) (k : Nat) : Nat := (mapFind m k).getD 0

/-- Assignment map[k] = v, as operator-bracket followed by a store. -/
def mapSet : NatMap → Nat → Nat → NatMap
  | [], k, v => [(k, v)]
  | kv :: rest, k, v => if kv.1 = k then (k, v) :: rest else kv :: mapSet rest k v

/-- Read map[k], default-inserting a zero entry when the key is absent, as
C++ operator-bracket does; returns the value and the possibly enlarged
map. -/
def mapGetOrInsert (m : NatMap) (k : Nat) : Nat × NatMap :=
  match mapFind m k with
  | some v => (v, m)
  | none => (0, m ++ [(k, 0)])

/-- Removal of a key, as std::map::erase. -/
def mapErase (m : NatMap) (k : Nat) : NatMap := m.filter (fun kv => kv.1 != k)

/-- State of the Buffer monitor: the pending job queue, the two
per-computation counter maps, the next computation id and the termination
flag (nbJobFinished is the compatibility counter). -/
structure BufferModel where
  jobQueue : List ComputeParameters
  jobsFinishedPerComputation : NatMap
  totalJobsPerComputation : NatMap
  nextComputationId : Nat
  isTerminating : Bool
  nbJobFinished : Nat
deriving DecidableEq

/-- Buffer state built by the Buffer constructor. -/
def initialBuffer : BufferModel := ⟨[], [], [], 0, false, 0⟩

/-- Buffer::sendJob — push the job at the back of the queue (the signal
on jobAvailable wakes a consumer; waking is modelled in the worker
transitions). -/
def sendJob (s : BufferModel) (p : ComputeParameters) : BufferModel :=
  { s with jobQueue := s.jobQueue ++ [p] }

/-- Result of one pass through Buffer::getJob once the monitor is held:
either the caller keeps waiting, or it observes termination with an empty
queue and returns false (Stopped), or it removes and returns the front
job. -/
inductive GetJobResult
  | blocked
  | stopped
  | got (p : ComputeParameters) (rest : List ComputeParameters)
deriving DecidableEq

/-- Buffer::getJob — wait while the queue is empty and the buffer is not
terminating; return false when terminating with an empty queue; otherwise
pop and return the front job (FIFO). -/
def getJobStep (s : BufferModel) : GetJobResult :=
  match s.jobQueue, s.isTerminating with
  | [], false => .blocked
  | [], true => .stopped
  | p :: rest, _ => .got p rest

/-- Buffer::jobCompleted — increment the compatibility counter and the
per-computation finished counter (operator-bracket default-inserts a zero
entry first when the id is unknown). -/
def jobCompleted (s : BufferModel) (id : Nat) : BufferModel :=
  { s with
    nbJobFinished := s.nbJobFinished + 1,
    jobsFinishedPerComputation :=
      mapSet (mapGetOrInsert s.jobsFinishedPerComputation id).2 id
        ((mapGetOrInsert s.jobsFinishedPerComputation id).1 + 1) }

/-- Buffer::startNewComputation — allocate the next id, create its record
with 0 finished jobs and the given total, and return the id. -/
def startNewComputation (s : BufferModel) (totalJobs : Nat) : Nat × BufferModel :=
  (s.nextComputationId,
   { s with
     nextComputationId := s.nextComputationId + 1,
     jobsFinishedPerComputation :=
       mapSet s.jobsFinishedPerComputation s.nextComputationId 0,
     totalJobsPerComputation :=
       mapSet s.totalJobsPerComputation s.nextComputationId totalJobs })

/-- Buffer::waitAllJobsDone — read total via operator-bracket, wait while
finished < total, then erase both entries.  Returns none when the caller
would block at least once (finished < total on entry), and the cleaned-up
state when it returns immediately. -/
def waitAllJobsDone (s : BufferModel) (id : Nat) : Option BufferModel :=
  if (mapGetOrInsert s.jobsFinishedPerComputation id).1
      < (mapGetOrInsert s.totalJobsPerComputation id).1 then none
  else
    some { s with
      jobsFinishedPerComputation :=
        mapErase (mapGetOrInsert s.jobsFinishedPerComputation id).2 id,
      totalJobsPerComputation :=
        mapErase (mapGetOrInsert s.totalJobsPerComputation id).2 id }

/-- Release condition of the wait loop in Buffer::waitAllJobsDone: the
loop exits exactly when finished < total fails. -/
def waitReleaseNow (s : BufferModel) (id : Nat) : Prop :=
  ¬ (mapFindD s.jobsFinishedPerComputation id < mapFindD s.totalJobsPerComputation id)

/-- Effect of one signal(jobAvailable) pulse of Buffer::terminate in the
drain scenario (isTerminating already set, job queue empty): a Hoare
signal wakes at most one thread blocked in wait; the woken worker rechecks
the loop guard, observes termination with an empty queue, returns false
and never waits on the condition again.  Hence the number of blocked
workers drops by one, or stays zero when nobody is waiting. -/
def signalPulse (blockedWorkers : Nat) : Nat := blockedWorkers - 1

/-- Iterated signal pulses. -/
def terminatePulses : Nat → Nat → Nat
  | 0, w => w
  | k + 1, w => terminatePulses k (signalPulse w)

/-- Buffer::terminate in the drain scenario: after setting isTerminating
the source emits exactly 100 single-wake pulses ("More than enough to
wake all possible threads"); this is the number of workers still blocked
in getJob afterwards, starting from w blocked workers and an empty
queue. -/
def terminateRemaining (w : Nat) : Nat := terminatePulses 100 w

theorem terminatePulses_eq : ∀ (k w : Nat), terminatePulses k w = w - k := by
  intro k
  induction k with
  | zero => intro w; rfl
  | succ m ih =>
    intro w
    unfold terminatePulses signalPulse
    rw [ih]
    omega

/-- C3 evaluation at the failing input: with 101 workers blocked in
getJob on an empty queue, terminate's 100 single-wake pulses leave one
worker permanently blocked — the drain does not wake every waiting
thread, contrary to the claim. -/
theorem terminate_leaves_a_worker_blocked : terminateRemaining 101 = 1 := by
  unfold terminateRemaining
  rw [terminatePulses_eq]

/-- C4: getJob returns Stopped exactly when the buffer is draining and
the pending queue is empty; whenever the queue is nonempty — draining or
not — the front job is removed and returned, so no job enqueued before
teardown is dropped. -/
theorem getJob_stopped_iff (s : BufferModel) :
    (getJobStep s = .stopped ↔ s.isTerminating = true ∧ s.jobQueue = []) ∧
    (∀ p rest, s.jobQueue = p :: rest → getJobStep s = .got p rest) := by
  constructor
  · unfold getJobStep
    rcases hq : s.jobQueue with _ | ⟨p, rest⟩ <;> rcases ht : s.isTerminating <;>
      simp [hq, ht]
  · intro p rest hq
    unfold getJobStep
    rw [hq]

/-- Witness for C4 at a concrete buffer state with a nonempty queue. -/
theorem getJob_stopped_iff_witness :
    (getJobStep ⟨[⟨0, 1, 2, 3⟩], [], [], 0, true, 0⟩ = .stopped
        ↔ (⟨[⟨0, 1, 2, 3⟩], [], [], 0, true, 0⟩ : BufferModel).isTerminating = true
          ∧ (⟨[⟨0, 1, 2, 3⟩], [], [], 0, true, 0⟩ : BufferModel).jobQueue = []) ∧
    (∀ p rest,
      (⟨[⟨0, 1, 2, 3⟩], [], [], 0, true, 0⟩ : BufferModel).jobQueue = p :: rest →
        getJobStep ⟨[⟨0, 1, 2, 3⟩], [], [], 0, true, 0⟩ = .got p rest) :=
  getJob_stopped_iff ⟨[⟨0, 1, 2, 3⟩], [], [], 0, true, 0⟩

theorem mapErase_append_of_absent (m : NatMap) (id : Nat) (h : mapFind m id = none) :
    mapErase (m ++ [(id, 0)]) id = m := by
  induction m with
  | nil => simp [mapErase]
  | cons kv rest ih =>
    unfold mapFind at h
    by_cases hk : kv.1 = id
    · rw [if_pos hk] at h; exact absurd h (by simp)
    · rw [if_neg hk] at h
      simp only [List.cons_append, mapErase, List.filter_cons] at ih ⊢
      rw [if_pos (by simpa using hk)]
      rw [ih h]

/-- C10: waitAllJobsDone on an id with no live computation record returns
immediately without blocking — the missing total is default-created as 0,
the wait condition 0 < 0 is false, and the freshly created zero entries
are erased again, leaving the buffer unchanged. -/
theorem waitAllJobsDone_unknown_id (s : BufferModel) (id : Nat)
    (ht : mapFind s.totalJobsPerComputation id = none)
    (hf : mapFind s.jobsFinishedPerComputation id = none) :
    (mapGetOrInsert s.totalJobsPerComputation id).1 = 0 ∧
    waitAllJobsDone s id = some s := by
  constructor
  · unfold mapGetOrInsert
    rw [ht]
  · unfold waitAllJobsDone mapGetOrInsert
    rw [ht, hf]
    simp only
    rw [if_neg (by omega), mapErase_append_of_absent _ _ ht,
        mapErase_append_of_absent _ _ hf]

/-- Witness for C10 at a concrete buffer state lacking the record for
id 9. -/
theorem waitAllJobsDone_unknown_id_witness :
    (mapGetOrInsert (⟨[], [(3, 1)], [(3, 2)], 4, false, 0⟩ : BufferModel).totalJobsPerComputation 9).1 = 0 ∧
    waitAllJobsDone ⟨[], [(3, 1)], [(3, 2)], 4, false, 0⟩ 9
      = some ⟨[], [(3, 1)], [(3, 2)], 4, false, 0⟩ :=
  waitAllJobsDone_unknown_id ⟨[], [(3, 1)], [(3, 2)], 4, false, 0⟩ 9 (by decide) (by decide)

theorem mapFind_set_self (m : NatMap) (k v : Nat) : mapFind (mapSet m k v) k = some v := by
  induction m with
  | nil => simp [mapSet, mapFind]
  | cons kv rest ih =>
    unfold mapSet
    by_cases h : kv.1 = k
    · rw [if_pos h]
      simp [mapFind]
    · rw [if_neg h]
      unfold mapFind
      rw [if_neg h]
      exact ih

theorem mapFind_set_other (m : NatMap) (k k' v : Nat) (h : k' ≠ k) :
    mapFind (mapSet m k v) k' = mapFind m k' := by
  induction m with
  | nil =>
    show mapFind [(k, v)] k' = mapFind [] k'
    simp only [mapFind]
    rw [if_neg (fun hh => h hh.symm)]
  | cons kv rest ih =>
    simp only [mapSet]
    by_cases hk : kv.1 = k
    · rw [if_pos hk]
      show mapFind ((k, v) :: rest) k' = mapFind (kv :: rest) k'
      simp only [mapFind]
      rw [if_neg (show ¬ (k, v).1 = k' from fun hh => h hh.symm),
          if_neg (show ¬ kv.1 = k' from by omega)]
    · rw [if_neg hk]
      show mapFind (kv :: mapSet rest k v) k' = mapFind (kv :: rest) k'
      simp only [mapFind]
      by_cases hk' : kv.1 = k'
      · rw [if_pos hk', if_pos hk']
      · rw [if_neg hk', if_neg hk']
        exact ih

theorem mapFindD_set_self (m : NatMap) (k v : Nat) : mapFindD (mapSet m k v) k = v := by
  unfold mapFindD
  rw [mapFind_set_self]
  rfl

theorem mapFindD_set_other (m : NatMap) (k k' v : Nat) (h : k' ≠ k) :
    mapFindD (mapSet m k v) k' = mapFindD m k' := by
  unfold mapFindD
  rw [mapFind_set_other m k k' v h]

theorem mapFind_erase_self (m : NatMap) (k : Nat) : mapFind (mapErase m k) k = none := by
  induction m with
  | nil => rfl
  | cons kv rest ih =>
    unfold mapErase at ih ⊢
    rw [List.filter_cons]
    by_cases h : kv.1 = k
    · rw [if_neg (by simp [h])]
      exact ih
    · rw [if_pos (by simp [h])]
      show mapFind (kv :: List.filter (fun kv => kv.1 != k) rest) k = none
      simp only [mapFind]
      rw [if_neg h]
      exact ih

theorem mapFind_erase_other (m : NatMap) (k k' : Nat) (h : k' ≠ k) :
    mapFind (mapErase m k) k' = mapFind m k' := by
  induction m with
  | nil => rfl
  | cons kv rest ih =>
    unfold mapErase at ih ⊢
    rw [List.filter_cons]
    by_cases hk : kv.1 = k
    · rw [if_neg (by simp [hk])]
      show mapFind (List.filter (fun kv => kv.1 != k) rest) k'
          = mapFind (kv :: rest) k'
      simp only [mapFind]
      rw [if_neg (by omega)]
      exact ih
    · rw [if_pos (by simp [hk])]
      show mapFind (kv :: List.filter (fun kv => kv.1 != k) rest) k'
          = mapFind (kv :: rest) k'
      simp only [mapFind]
      by_cases hk' : kv.1 = k'
      · rw [if_pos hk', if_pos hk']
      · rw [if_neg hk', if_neg hk']
        exact ih

theorem mapFindD_erase_self (m : NatMap) (k : Nat) : mapFindD (mapErase m k) k = 0 := by
  unfold mapFindD
  rw [mapFind_erase_self]
  rfl

theorem mapFindD_erase_other (m : NatMap) (k k' : Nat) (h : k' ≠ k) :
    mapFindD (mapErase m k) k' = mapFindD m k' := by
  unfold mapFindD
  rw [mapFind_erase_other m k k' h]

theorem mapGetOrInsert_fst (m : NatMap) (k : Nat) :
    (mapGetOrInsert m k).1 = mapFindD m k := by
  unfold mapGetOrInsert mapFindD
  cases h : mapFind m k <;> simp [h]

theorem mapFind_append_single (m : NatMap) (k v k' : Nat) :
    mapFind (m ++ [(k, v)]) k'
      = match mapFind m k' with
        | some w => some w
        | none => if k = k' then some v else none := by
  induction m with
  | nil =>
    show mapFind [(k, v)] k' = if k = k' then some v else none
    unfold mapFind
    by_cases h : k = k'
    · rw [if_pos h, if_pos h]
    · rw [if_neg h, if_neg h]
      rfl
  | cons kv rest ih =>
    show mapFind (kv :: (rest ++ [(k, v)])) k' = _
    unfold mapFind
    by_cases h : kv.1 = k'
    · rw [if_pos h, if_pos h]
    · rw [if_neg h, if_neg h]
      exact ih

theorem mapGetOrInsert_snd_findD (m : NatMap) (k k' : Nat) :
    mapFindD (mapGetOrInsert m k).2 k' = mapFindD m k' := by
  unfold mapGetOrInsert
  cases h : mapFind m k with
  | some v => rfl
  | none =>
    simp only
    unfold mapFindD
    rw [mapFind_append_single]
    by_cases hk : k' = k
    · subst hk
      rw [h]
      simp
    · cases hf : mapFind m k' with
      | some w => simp
      | none =>
        simp only
        rw [if_neg (fun hh => hk hh.symm)]

theorem jobCompleted_findD_self (m : NatMap) (k : Nat) :
    mapFindD (mapSet (mapGetOrInsert m k).2 k ((mapGetOrInsert m k).1 + 1)) k
      = mapFindD m k + 1 := by
  rw [mapFindD_set_self, mapGetOrInsert_fst]

theorem jobCompleted_findD_other (m : NatMap) (k k' : Nat) (h : k' ≠ k) :
    mapFindD (mapSet (mapGetOrInsert m k).2 k ((mapGetOrInsert m k).1 + 1)) k'
      = mapFindD m k' := by
  rw [mapFindD_set_other _ _ _ _ h, mapGetOrInsert_snd_findD]

theorem waitErase_findD_self (m : NatMap) (k : Nat) :
    mapFindD (mapErase (mapGetOrInsert m k).2 k) k = 0 :=
  mapFindD_erase_self _ _

theorem waitErase_findD_other (m : NatMap) (k k' : Nat) (h : k' ≠ k) :
    mapFindD (mapErase (mapGetOrInsert m k).2 k) k' = mapFindD m k' := by
  rw [mapFindD_erase_other _ _ _ h, mapGetOrInsert_snd_findD]

/-- Global state of the engine: the buffer plus the jobs currently held
by workers (identified by their computation id) and, per computation, the
number of jobs its multiply call has registered but not yet sent. -/
structure SysState where
  buf : BufferModel
  inFlight : List Nat
  toSend : NatMap
deriving DecidableEq

/-- Atomic monitor operations by which the dispatcher threads and the
workers drive the buffer, as performed by the source: multiply registers
a computation (startNewComputation with d * d total jobs) and then sends
its jobs one by one; a worker pops a job in getJob, later reports it via
jobCompleted, and the job it holds is the only one it can report; multiply
returns from waitAllJobsDone only when the wait condition releases; the
destructor sets the termination flag. -/
inductive SysOp
  | beginMultiply (d : Nat)
  | sendOne (p : ComputeParameters)
  | workerGet
  | workerDone (id : Nat)
  | finishWait (id : Nat)
  | terminate

/-- One interleaved atomic step of the engine; none when the guard of the
operation does not hold (the thread cannot take that step). -/
def sysStep (s : SysState) : SysOp → Option SysState
  | .beginMultiply d =>
    if d = 0 then none
    else
      some { buf := (startNewComputation s.buf (d * d)).2,
             inFlight := s.inFlight,
             toSend := mapSet s.toSend (startNewComputation s.buf (d * d)).1 (d * d) }
  | .sendOne p =>
    if mapFindD s.toSend p.computationId = 0 then none
    else
      some { s with
        buf := sendJob s.buf p,
        toSend := mapSet s.toSend p.computationId
          (mapFindD s.toSend p.computationId - 1) }
  | .workerGet =>
    match getJobStep s.buf with
    | .got p rest =>
      some { s with
        buf := { s.buf with jobQueue := rest },
        inFlight := p.computationId :: s.inFlight }
    | _ => none
  | .workerDone id =>
    if id ∈ s.inFlight then
      some { s with buf := jobCompleted s.buf id, inFlight := s.inFlight.erase id }
    else none
  | .finishWait id =>
    match waitAllJobsDone s.buf id with
    | some b => some { s with buf := b }
    | none => none
  | .terminate =>
    some { s with buf := { s.buf with isTerminating := true } }

/-- Run of the engine: a sequence of atomic steps from a state. -/
def sysRun : SysState → List SysOp → Option SysState
  | s, [] => some s
  | s, op :: ops =>
    match sysStep s op with
    | some s2 => sysRun s2 ops
    | none => none

/-- State at engine construction. -/
def initialSys : SysState := ⟨initialBuffer, [], []⟩

/-- Number of pending jobs of a computation in the buffer queue. -/
def queueCount (s : SysState) (id : Nat) : Nat :=
  s.buf.jobQueue.countP (fun p => p.computationId == id)

/-- Conservation invariant: for every computation id, finished jobs plus
jobs held by workers plus queued jobs plus jobs not yet sent equal the
registered total, and ids at or above the allocation counter are
untouched. -/
def SysInv (s : SysState) : Prop :=
  (∀ id, mapFindD s.buf.jobsFinishedPerComputation id
      + s.inFlight.count id + queueCount s id + mapFindD s.toSend id
      = mapFindD s.buf.totalJobsPerComputation id)
  ∧ (∀ id, s.buf.nextComputationId ≤ id →
      mapFindD s.buf.totalJobsPerComputation id = 0
      ∧ mapFindD s.buf.jobsFinishedPerComputation id = 0
      ∧ s.inFlight.count id = 0
      ∧ queueCount s id = 0
      ∧ mapFindD s.toSend id = 0)

theorem initialSys_inv : SysInv initialSys :=
  ⟨fun _ => rfl, fun _ _ => ⟨rfl, rfl, rfl, rfl, rfl⟩⟩

theorem getJobStep_got_inv (b : BufferModel) (p : ComputeParameters)
    (rest : List ComputeParameters) (h : getJobStep b = .got p rest) :
    b.jobQueue = p :: rest := by
  unfold getJobStep at h
  rcases hq : b.jobQueue with _ | ⟨q, qs⟩ <;> rcases ht : b.isTerminating <;>
    rw [hq, ht] at h <;> simp_all

theorem waitAllJobsDone_some_inv (b : BufferModel) (id : Nat) (b2 : BufferModel)
    (h : waitAllJobsDone b id = some b2) :
    mapFindD b.totalJobsPerComputation id ≤ mapFindD b.jobsFinishedPerComputation id ∧
    b2 = { b with
      jobsFinishedPerComputation :=
        mapErase (mapGetOrInsert b.jobsFinishedPerComputation id).2 id,
      totalJobsPerComputation :=
        mapErase (mapGetOrInsert b.totalJobsPerComputation id).2 id } := by
  unfold waitAllJobsDone at h
  split at h
  · exact absurd h (by simp)
  · next hlt =>
    rw [mapGetOrInsert_fst, mapGetOrInsert_fst] at hlt
    exact ⟨by omega, (Option.some.inj h).symm⟩

theorem sysStep_inv (s s2 : SysState) (op : SysOp) (hinv : SysInv s)
    (h : sysStep s op = some s2) : SysInv s2 := by
  obtain ⟨heq, hfresh⟩ := hinv
  cases op with
  | beginMultiply d =>
    simp only [sysStep] at h
    split at h
    · exact Option.noConfusion h
    · injection h with h2
      subst h2
      constructor
      · intro id
        dsimp only [startNewComputation, queueCount]
        by_cases hid : id = s.buf.nextComputationId
        · subst hid
          rw [mapFindD_set_self, mapFindD_set_self, mapFindD_set_self]
          obtain ⟨h1, h2, h3, h4, h5⟩ := hfresh _ (Nat.le_refl _)
          simp only [queueCount] at h4
          omega
        · rw [mapFindD_set_other _ _ _ _ hid, mapFindD_set_other _ _ _ _ hid,
              mapFindD_set_other _ _ _ _ hid]
          have h6 := heq id
          simp only [queueCount] at h6
          omega
      · intro id hge
        dsimp only [startNewComputation, queueCount] at hge ⊢
        have hne : id ≠ s.buf.nextComputationId := by omega
        rw [mapFindD_set_other _ _ _ _ hne, mapFindD_set_other _ _ _ _ hne,
            mapFindD_set_other _ _ _ _ hne]
        obtain ⟨h1, h2, h3, h4, h5⟩ := hfresh id (by omega)
        simp only [queueCount] at h4
        exact ⟨h1, h2, h3, h4, h5⟩
  | sendOne p =>
    simp only [sysStep] at h
    split at h
    · exact Option.noConfusion h
    · rename_i hk
      injection h with h2
      subst h2
      constructor
      · intro id
        dsimp only [sendJob, queueCount]
        rw [List.countP_append, List.countP_cons, List.countP_nil]
        by_cases hid : id = p.computationId
        · subst hid
          rw [if_pos (beq_self_eq_true _), mapFindD_set_self]
          have h6 := heq p.computationId
          simp only [queueCount] at h6
          omega
        · rw [if_neg (by simp only [beq_iff_eq]; omega), mapFindD_set_other _ _ _ _ hid]
          have h6 := heq id
          simp only [queueCount] at h6
          omega
      · intro id hge
        dsimp only [sendJob, queueCount] at hge ⊢
        obtain ⟨h1, h2, h3, h4, h5⟩ := hfresh id hge
        have hcid : p.computationId < s.buf.nextComputationId := by
          by_contra hc
          obtain ⟨_, _, _, _, h5c⟩ := hfresh p.computationId (by omega)
          exact hk h5c
        have hne : id ≠ p.computationId := by omega
        rw [List.countP_append, mapFindD_set_other _ _ _ _ hne]
        simp only [queueCount] at h4
        refine ⟨h1, h2, h3, ?_, h5⟩
        rw [h4, List.countP_cons, List.countP_nil,
            if_neg (by simp only [beq_iff_eq]; omega)]
  | workerGet =>
    simp only [sysStep] at h
    split at h
    · rename_i p rest hgot
      injection h with h2
      subst h2
      have hq := getJobStep_got_inv s.buf p rest hgot
      constructor
      · intro id
        dsimp only [queueCount]
        have h6 := heq id
        simp only [queueCount, hq] at h6
        rw [List.countP_cons] at h6
        by_cases hid : id = p.computationId
        · subst hid
          rw [List.count_cons_self]
          rw [if_pos (beq_self_eq_true _)] at h6
          omega
        · rw [List.count_cons_of_ne hid]
          rw [if_neg (by simp only [beq_iff_eq]; omega)] at h6
          omega
      · intro id hge
        dsimp only [queueCount] at hge ⊢
        obtain ⟨h1, h2, h3, h4, h5⟩ := hfresh id hge
        simp only [queueCount, hq] at h4
        rw [List.countP_cons] at h4
        have hcid : ¬ p.computationId = id := by
          intro hh
          rw [if_pos (by rw [hh]; exact beq_self_eq_true _)] at h4
          omega
        rw [if_neg (by simp only [beq_iff_eq]; exact hcid)] at h4
        refine ⟨h1, h2, ?_, by omega, h5⟩
        rw [List.count_cons_of_ne (fun hh => hcid hh.symm)]
        exact h3
    · exact Option.noConfusion h
  | workerDone id0 =>
    simp only [sysStep] at h
    split at h
    · rename_i hmem
      injection h with h2
      subst h2
      constructor
      · intro id
        dsimp only [jobCompleted, queueCount]
        by_cases hid : id = id0
        · subst hid
          rw [jobCompleted_findD_self, List.count_erase_self]
          have h6 := heq id
          simp only [queueCount] at h6
          have hpos : 0 < s.inFlight.count id := List.count_pos_iff.mpr hmem
          omega
        · rw [jobCompleted_findD_other _ _ _ hid, List.count_erase_of_ne hid]
          have h6 := heq id
          simp only [queueCount] at h6
          omega
      · intro id hge
        dsimp only [jobCompleted, queueCount] at hge ⊢
        obtain ⟨h1, h2, h3, h4, h5⟩ := hfresh id hge
        have hne : id ≠ id0 := by
          intro hh
          subst hh
          have hpos : 0 < s.inFlight.count id := List.count_pos_iff.mpr hmem
          omega
        rw [jobCompleted_findD_other _ _ _ hne, List.count_erase_of_ne hne]
        simp only [queueCount] at h4
        exact ⟨h1, h2, h3, h4, h5⟩
    · exact Option.noConfusion h
  | finishWait id0 =>
    simp only [sysStep] at h
    split at h
    · rename_i b hwait
      injection h with h2
      subst h2
      obtain ⟨hle, hb⟩ := waitAllJobsDone_some_inv s.buf id0 b hwait
      subst hb
      constructor
      · intro id
        dsimp only [queueCount]
        by_cases hid : id = id0
        · subst hid
          rw [waitErase_findD_self, waitErase_findD_self]
          have h6 := heq id
          simp only [queueCount] at h6
          omega
        · rw [waitErase_findD_other _ _ _ hid, waitErase_findD_other _ _ _ hid]
          have h6 := heq id
          simp only [queueCount] at h6
          omega
      · intro id hge
        dsimp only [queueCount] at hge ⊢
        obtain ⟨h1, h2, h3, h4, h5⟩ := hfresh id hge
        simp only [queueCount] at h4
        by_cases hid : id = id0
        · subst hid
          rw [waitErase_findD_self, waitErase_findD_self]
          exact ⟨rfl, rfl, h3, h4, h5⟩
        · rw [waitErase_findD_other _ _ _ hid, waitErase_findD_other _ _ _ hid]
          exact ⟨h1, h2, h3, h4, h5⟩
    · exact Option.noConfusion h
  | terminate =>
    simp only [sysStep] at h
    injection h with h2
    subst h2
    constructor
    · intro id
      dsimp only [queueCount]
      have h6 := heq id
      simp only [queueCount] at h6
      exact h6
    · intro id hge
      dsimp only [queueCount] at hge ⊢
      obtain ⟨h1, h2, h3, h4, h5⟩ := hfresh id hge
      simp only [queueCount] at h4
      exact ⟨h1, h2, h3, h4, h5⟩

theorem sysRun_inv : ∀ (ops : List SysOp) (s0 s : SysState),
    SysInv s0 → sysRun s0 ops = some s → SysInv s := by
  intro ops
  induction ops with
  | nil =>
    intro s0 s h0 h
    injection h with h2
    subst h2
    exact h0
  | cons op ops ih =>
    intro s0 s h0 h
    unfold sysRun at h
    cases hstep : sysStep s0 op with
    | none => rw [hstep] at h; exact Option.noConfusion h
    | some s1 =>
      rw [hstep] at h
      exact ih s1 s (sysStep_inv s0 s1 op h0 hstep) h

/-- C6: in every reachable engine state, completedJobs ≤ totalJobs holds
for every computation id (after every queue operation), and the wait loop
of awaitComputation (Buffer::waitAllJobsDone) releases exactly when
completedJobs = totalJobs. -/
theorem completed_le_total_and_release (ops : List SysOp) (s : SysState)
    (h : sysRun initialSys ops = some s) :
    (∀ id, mapFindD s.buf.jobsFinishedPerComputation id
        ≤ mapFindD s.buf.totalJobsPerComputation id) ∧
    (∀ id, waitReleaseNow s.buf id
        ↔ mapFindD s.buf.jobsFinishedPerComputation id
          = mapFindD s.buf.totalJobsPerComputation id) := by
  obtain ⟨heq, _⟩ := sysRun_inv ops initialSys s initialSys_inv h
  constructor
  · intro id
    have := heq id
    omega
  · intro id
    unfold waitReleaseNow
    have := heq id
    omega

/-- Run of the engine that also records the computation ids returned by
the startNewComputation calls, in allocation order. -/
def sysRunIds : SysState → List SysOp → Option (SysState × List Nat)
  | s, [] => some (s, [])
  | s, op :: ops =>
    match sysStep s op with
    | none => none
    | some s2 =>
      match sysRunIds s2 ops with
      | none => none
      | some (sf, ids) =>
        match op with
        | .beginMultiply _ => some (sf, s.buf.nextComputationId :: ids)
        | _ => some (sf, ids)

theorem sysStep_nextId_mono (s : SysState) (op : SysOp) (s2 : SysState)
    (h : sysStep s op = some s2) :
    s.buf.nextComputationId ≤ s2.buf.nextComputationId := by
  cases op with
  | beginMultiply d =>
    simp only [sysStep] at h
    split at h
    · exact Option.noConfusion h
    · injection h with h2
      subst h2
      dsimp only [startNewComputation]
      omega
  | sendOne p =>
    simp only [sysStep] at h
    split at h
    · exact Option.noConfusion h
    · injection h with h2
      subst h2
      exact Nat.le_refl _
  | workerGet =>
    simp only [sysStep] at h
    split at h
    · injection h with h2
      subst h2
      exact Nat.le_refl _
    · exact Option.noConfusion h
  | workerDone id0 =>
    simp only [sysStep] at h
    split at h
    · injection h with h2
      subst h2
      exact Nat.le_refl _
    · exact Option.noConfusion h
  | finishWait id0 =>
    simp only [sysStep] at h
    split at h
    · rename_i b hwait
      injection h with h2
      subst h2
      obtain ⟨_, hb⟩ := waitAllJobsDone_some_inv s.buf id0 b hwait
      subst hb
      exact Nat.le_refl _
    · exact Option.noConfusion h
  | terminate =>
    simp only [sysStep] at h
    injection h with h2
    subst h2
    exact Nat.le_refl _

theorem sysStep_beginMultiply_nextId (s : SysState) (d : Nat) (s2 : SysState)
    (h : sysStep s (SysOp.beginMultiply d) = some s2) :
    s2.buf.nextComputationId = s.buf.nextComputationId + 1 := by
  simp only [sysStep] at h
  split at h
  · exact Option.noConfusion h
  · injection h with h2
    subst h2
    rfl

theorem sysRunIds_ids_lt (ops : List SysOp) : ∀ (s0 sf : SysState) (ids : List Nat),
    sysRunIds s0 ops = some (sf, ids) →
    (∀ x ∈ ids, s0.buf.nextComputationId ≤ x) ∧ ids.Pairwise (· < ·) := by
  induction ops with
  | nil =>
    intro s0 sf ids h
    injection h with h2
    obtain ⟨rfl, rfl⟩ := Prod.mk.injEq .. ▸ (Prod.mk.inj h2.symm)
    exact ⟨by simp, List.Pairwise.nil⟩
  | cons op ops ih =>
    intro s0 sf ids h
    simp only [sysRunIds] at h
    cases hstep : sysStep s0 op with
    | none => rw [hstep] at h; exact Option.noConfusion h
    | some s1 =>
      rw [hstep] at h
      dsimp only at h
      cases hrun : sysRunIds s1 ops with
      | none => rw [hrun] at h; exact Option.noConfusion h
      | some r =>
        obtain ⟨sf1, ids1⟩ := r
        rw [hrun] at h
        dsimp only at h
        obtain ⟨hall1, hpair1⟩ := ih s1 sf1 ids1 hrun
        have hmono := sysStep_nextId_mono s0 op s1 hstep
        cases op with
        | beginMultiply d =>
          injection h with h2
          obtain ⟨rfl, rfl⟩ := Prod.mk.injEq .. ▸ (Prod.mk.inj h2.symm)
          have hnext := sysStep_beginMultiply_nextId s0 d s1 hstep
          constructor
          · intro x hx
            rcases List.mem_cons.mp hx with rfl | hx1
            · exact Nat.le_refl _
            · have := hall1 x hx1
              omega
          · refine List.Pairwise.cons ?_ hpair1
            intro x hx1
            have := hall1 x hx1
            omega
        | sendOne p =>
          injection h with h2
          obtain ⟨rfl, rfl⟩ := Prod.mk.injEq .. ▸ (Prod.mk.inj h2.symm)
          exact ⟨fun x hx => Nat.le_trans hmono (hall1 x hx), hpair1⟩
        | workerGet =>
          injection h with h2
          obtain ⟨rfl, rfl⟩ := Prod.mk.injEq .. ▸ (Prod.mk.inj h2.symm)
          exact ⟨fun x hx => Nat.le_trans hmono (hall1 x hx), hpair1⟩
        | workerDone id0 =>
          injection h with h2
          obtain ⟨rfl, rfl⟩ := Prod.mk.injEq .. ▸ (Prod.mk.inj h2.symm)
          exact ⟨fun x hx => Nat.le_trans hmono (hall1 x hx), hpair1⟩
        | finishWait id0 =>
          injection h with h2
          obtain ⟨rfl, rfl⟩ := Prod.mk.injEq .. ▸ (Prod.mk.inj h2.symm)
          exact ⟨fun x hx => Nat.le_trans hmono (hall1 x hx), hpair1⟩
        | terminate =>
          injection h with h2
          obtain ⟨rfl, rfl⟩ := Prod.mk.injEq .. ▸ (Prod.mk.inj h2.symm)
          exact ⟨fun x hx => Nat.le_trans hmono (hall1 x hx), hpair1⟩

/-- C7: the computation ids returned by startNewComputation over any run
of the engine are strictly increasing in allocation order — every call
returns an id strictly greater than all earlier ids — and therefore
pairwise distinct for the lifetime of the engine. -/
theorem computation_ids_monotone (ops : List SysOp) (s : SysState) (ids : List Nat)
    (h : sysRunIds initialSys ops = some (s, ids)) :
    ids.Pairwise (· < ·) ∧ ids.Nodup := by
  have h2 := (sysRunIds_ids_lt ops initialSys s ids h).2
  exact ⟨h2, h2.imp Nat.ne_of_lt⟩

/-- Concrete run for the C6 witness: one multiply of a 1 × 1 grid whose
single job is sent, taken and completed. -/
def c6WitnessOps : List SysOp :=
  [SysOp.beginMultiply 1, SysOp.sendOne ⟨0, 0, 1, 0⟩, SysOp.workerGet, SysOp.workerDone 0]

/-- State reached by the C6 witness run. -/
def c6WitnessState : SysState := ⟨⟨[], [(0, 1)], [(0, 1)], 1, false, 1⟩, [], [(0, 0)]⟩

/-- Witness for C6 at the concrete run. -/
theorem completed_le_total_and_release_witness :
    (∀ id, mapFindD c6WitnessState.buf.jobsFinishedPerComputation id
        ≤ mapFindD c6WitnessState.buf.totalJobsPerComputation id) ∧
    (∀ id, waitReleaseNow c6WitnessState.buf id
        ↔ mapFindD c6WitnessState.buf.jobsFinishedPerComputation id
          = mapFindD c6WitnessState.buf.totalJobsPerComputation id) :=
  completed_le_total_and_release c6WitnessOps c6WitnessState (by decide)

/-- Concrete run for the C7 witness: two beginComputation calls. -/
def c7WitnessOps : List SysOp := [SysOp.beginMultiply 1, SysOp.beginMultiply 2]

/-- State reached by the C7 witness run. -/
def c7WitnessState : SysState :=
  ⟨⟨[], [(0, 0), (1, 0)], [(0, 1), (1, 4)], 2, false, 0⟩, [], [(0, 1), (1, 4)]⟩

/-- Witness for C7 at the concrete run: the two allocated ids 0 and 1 are
strictly increasing and distinct. -/
theorem computation_ids_monotone_witness :
    List.Pairwise (· < ·) [0, 1] ∧ ([0, 1] : List Nat).Nodup :=
  computation_ids_monotone c7WitnessOps c7WitnessState [0, 1] (by decide)

end MatrixMult
